import Mathlib

/-!
Verification development for the transcribe-rs repository.

Machine floats (`f32`) are modelled as exact rationals (`ℚ`);
Rust `usize` as `ℕ`.  The realtime session (src/realtime.rs), the
Parakeet greedy decode loop (src/parakeet_engine.rs), the vocabulary
loader, the detokenizer space normalisation, and the WAV sample
normalisation are embedded below, followed by theorems about them.
-/

namespace TranscribeRS

/-! ## Realtime session (src/realtime.rs) -/

/-- `SerializableSegment` / `TranscriptionSegment`: `{start, end, text}`.
The field `end` is a Lean keyword, so it is named `stop` here. -/
structure Segment where
  start : ℚ
  stop : ℚ
  text : String
deriving DecidableEq, Repr

/-- `TranscriptionResult` returned by a transcriber. -/
structure TranscriptionResult where
  text : String
  segments : List Segment
deriving DecidableEq, Repr

/-- Inbound message format of the realtime session. -/
inductive InboundMessage where
  | Chunk (samples : List ℚ)
  | Reset
  | Flush
deriving DecidableEq, Repr

/-- Outbound message format of the realtime session. -/
inductive OutboundMessage where
  | Ready (engine : String)
  | Status (message : String)
  | Transcript (text : String) (segments : List Segment)
  | Error (message : String)
deriving DecidableEq, Repr

/-- State of `RealtimeSession` (the transcriber itself is passed to
`handle_inbound` as a function argument). -/
structure Session where
  language : Option String
  samples : List ℚ
  sample_rate : ℕ
  max_buffer_samples : ℕ
  timeline_offset : ℚ
  published_segments : List Segment
  published_text : String
  last_sent_segments : List Segment
  last_sent_text : String
deriving DecidableEq, Repr

/-- `RealtimeSession::with_sample_rate`. -/
def Session.with_sample_rate (language : Option String)
    (sample_rate max_buffer_duration_secs : ℕ) : Session :=
  let sr := max sample_rate 1
  let max_duration := max max_buffer_duration_secs 1
  { language := language
    samples := []
    sample_rate := sr
    max_buffer_samples := sr * max_duration
    timeline_offset := 0
    published_segments := []
    published_text := ""
    last_sent_segments := []
    last_sent_text := "" }

/-- `RealtimeSession::new` (TARGET_SAMPLE_RATE = 16000,
DEFAULT_MAX_BUFFER_SECONDS = 300). -/
def Session.new (language : Option String) : Session :=
  Session.with_sample_rate language 16000 300

/-- `RealtimeSession::push_samples`. -/
def push_samples (s : Session) (incoming : List ℚ) : Session :=
  let samples := s.samples ++ incoming
  if samples.length > s.max_buffer_samples then
    let excess := samples.length - s.max_buffer_samples
    { s with
        samples := samples.drop excess
        timeline_offset := s.timeline_offset + (excess : ℚ) / (s.sample_rate : ℚ) }
  else
    { s with samples := samples }

/-- f32::EPSILON = 2⁻²³. -/
def f32Epsilon : ℚ := 1 / 8388608

/-- Body of the `for segment in new_segments` loop of
`RealtimeSession::merge_segments`: either refine the tail segment in
place (when both endpoints are within 0.25 s) or append. -/
def mergeStep (published : List Segment) (segment : Segment) : List Segment :=
  match published.getLast? with
  | some last =>
    if |last.start - segment.start| < 1/4 ∧ |last.stop - segment.stop| < 1/4 then
      if last.text ≠ segment.text ∨ f32Epsilon ≤ |last.start - segment.start| ∨
          f32Epsilon ≤ |last.stop - segment.stop| then
        published.dropLast ++ [segment]
      else
        published
    else
      published ++ [segment]
  | none => published ++ [segment]

/-- The `for` loop of `RealtimeSession::merge_segments`. -/
def mergeLoop (published : List Segment) : List Segment → List Segment
  | [] => published
  | segment :: rest => mergeLoop (mergeStep published segment) rest

/-- `RealtimeSession::merge_segments` (MERGE_BACKTRACK_SECONDS = 1.5).
Returns the updated session together with the `changed` flag. -/
def merge_segments (s : Session) (new_segments : List Segment) : Session × Bool :=
  if new_segments.isEmpty then (s, false)
  else
    let replace_from :=
      max (((new_segments.head?.map (fun seg => seg.start - 3/2)).getD 0))
        s.timeline_offset
    let original := s.published_segments
    let retain_len :=
      (s.published_segments.findIdx? (fun seg => replace_from ≤ seg.start)).getD
        s.published_segments.length
    let truncated :=
      if retain_len < s.published_segments.length then
        s.published_segments.take retain_len
      else
        s.published_segments
    let merged := mergeLoop truncated new_segments
    ({ s with published_segments := merged }, decide (merged ≠ original))

/-- Rust `str::trim`: drop whitespace from both ends (computed on the
character list so that it evaluates by reduction). -/
def rsTrim (s : String) : String :=
  ⟨((s.data.dropWhile Char.isWhitespace).reverse.dropWhile Char.isWhitespace).reverse⟩

/-- `RealtimeSession::segments_to_text`. -/
def segments_to_text (segments : List Segment) : String :=
  String.intercalate " "
    (segments.filterMap (fun seg =>
      let trimmed := rsTrim seg.text
      if trimmed = "" then none else some trimmed))

/-- Tail of the `Ok(result)` branch of the `Chunk` arm of
`RealtimeSession::handle_inbound`: recompute `published_text` and emit
a `Transcript` when anything changed against the last emission.
`changed0` is the flag returned by `merge_segments`. -/
def publish_update (s1 : Session) (changed0 : Bool) :
    Session × List OutboundMessage :=
  let aggregate := segments_to_text s1.published_segments
  let s2 := if aggregate ≠ s1.published_text then
      { s1 with published_text := aggregate }
    else s1
  let changed := if aggregate ≠ s1.published_text then true else changed0
  if changed = true ∨ s2.published_segments ≠ s2.last_sent_segments ∨
      s2.published_text ≠ s2.last_sent_text then
    ({ s2 with
        last_sent_segments := s2.published_segments
        last_sent_text := s2.published_text },
     [OutboundMessage.Transcript s2.published_text s2.published_segments])
  else
    (s2, [])

/-- The `Ok(result)` branch of the `Chunk` arm of
`RealtimeSession::handle_inbound`: shift the returned segments by the
timeline offset, merge them, then publish. -/
def apply_result (s : Session) (result : TranscriptionResult) :
    Session × List OutboundMessage :=
  let adjusted := result.segments.map (fun seg =>
    { seg with
        start := seg.start + s.timeline_offset
        stop := seg.stop + s.timeline_offset })
  let ms := merge_segments s adjusted
  publish_update ms.1 ms.2

/-- `RealtimeSession::handle_inbound`.  The transcriber is the function
argument `T`; its `Err` payload is modelled as the message `String`. -/
def handle_inbound
    (T : List ℚ → Option String → Except String TranscriptionResult)
    (s : Session) : InboundMessage → Session × List OutboundMessage
  | .Chunk samples =>
    if samples.isEmpty then (s, [])
    else
      let s1 := push_samples s samples
      match T s1.samples s1.language with
      | .ok result => apply_result s1 result
      | .error err => (s1, [OutboundMessage.Error ("transcription failed: " ++ err)])
  | .Reset =>
    ({ s with
        samples := []
        timeline_offset := 0
        published_segments := []
        published_text := ""
        last_sent_segments := []
        last_sent_text := "" },
     [OutboundMessage.Status "session_reset"])
  | .Flush =>
    if s.published_segments.isEmpty ∧ s.published_text = "" then (s, [])
    else
      (s, [OutboundMessage.Transcript s.published_text s.published_segments])

/-! ## Parakeet decode loop (src/parakeet_engine.rs) -/

/-- An `f32` logit value: either NaN or an exact rational. -/
inductive F32V where
  | nan
  | fin (q : ℚ)
deriving DecidableEq, Repr

/-- `a.partial_cmp(b).unwrap_or(Ordering::Equal)`: NaN compares as
`Equal` with everything. -/
def pcmp : F32V → F32V → Ordering
  | .nan, _ => .eq
  | _, .nan => .eq
  | .fin a, .fin b => compare a b

/-- One step of `Iterator::max_by` (which keeps the *later* element
whenever the comparison is not `Greater`). -/
def maxByFold (acc : Option (ℕ × F32V)) (x : ℕ × F32V) : Option (ℕ × F32V) :=
  match acc with
  | none => some x
  | some a => some (if pcmp a.2 x.2 = Ordering.gt then a else x)

/-- The argmax-token computation of `decode_sequence`:
`vocab_logits.iter().enumerate().max_by(..).map(|(idx, _)| idx).unwrap_or(blank_idx)`. -/
def chooseToken (logits : List F32V) (blank_idx : ℕ) : ℕ :=
  match logits.enum.foldl maxByFold none with
  | some p => p.1
  | none => blank_idx

/-- The TDT split of `decode_sequence`: only the first `vocab_size`
logits are vocabulary logits when the output is longer. -/
def decodeStepToken (vocab_size blank_idx : ℕ) (probs : List F32V) : ℕ :=
  let vocab_logits := if probs.length > vocab_size then probs.take vocab_size else probs
  chooseToken vocab_logits blank_idx

/-- `max_tokens_per_step` is set to 10 in `ParakeetModel::new`. -/
def MAX_PER_STEP : ℕ := 10

/-- Mutable state of the `while t < encodings_len` loop of
`decode_sequence`.  `calls` counts joint-decoder invocations; the
decoder state itself is opaque and absorbed into the oracle. -/
structure LoopState where
  t : ℕ
  emitted : ℕ
  tokens : List ℕ
  timestamps : List ℕ
  calls : ℕ
deriving DecidableEq, Repr

def LoopState.init : LoopState :=
  { t := 0, emitted := 0, tokens := [], timestamps := [], calls := 0 }

/-- One iteration of the `decode_sequence` loop, given the logits
returned by the joint-decoder on this call. -/
def decodeIter (vocab_size blank_idx : ℕ) (probs : List F32V)
    (st : LoopState) : LoopState :=
  let token := decodeStepToken vocab_size blank_idx probs
  let st := { st with calls := st.calls + 1 }
  let st :=
    if token ≠ blank_idx then
      { st with
          tokens := st.tokens ++ [token]
          timestamps := st.timestamps ++ [st.t]
          emitted := st.emitted + 1 }
    else st
  if token = blank_idx ∨ st.emitted = MAX_PER_STEP then
    { st with t := st.t + 1, emitted := 0 }
  else st

/-- The `decode_sequence` loop with explicit fuel.  The joint-decoder
is the oracle `step`, giving the logits of each successive call; `none`
means the fuel ran out before `t` reached `encodings_len`. -/
def decodeLoop (step : ℕ → List F32V) (vocab_size blank_idx encodings_len : ℕ) :
    ℕ → LoopState → Option (List ℕ × List ℕ)
  | 0, st =>
    if st.t < encodings_len then none else some (st.tokens, st.timestamps)
  | fuel + 1, st =>
    if st.t < encodings_len then
      decodeLoop step vocab_size blank_idx encodings_len fuel
        (decodeIter vocab_size blank_idx (step st.calls) st)
    else some (st.tokens, st.timestamps)

/-! ## Detokenizer (`decode_space_pattern` and `decode_tokens`) -/

/-- Whether a whitespace match is kept: the alternative `(\s)\b`
applies when a word character follows directly. -/
def keepWs (word : Char → Bool) : List Char → Bool
  | [] => false
  | c :: _ => word c

/-- Semantics of `Regex::replace_all` for `\A\s|\s\B|(\s)\b` with
replacement "captured group 1 or empty": every whitespace character is
a match; the one at position 0 is deleted (`\A\s`), any other one is
kept iff a word character follows (`(\s)\b`), else deleted (`\s\B`).
`ws`/`word` are the `\s`/`\w` character classes. -/
def normAux (ws word : Char → Bool) : Bool → List Char → List Char
  | _, [] => []
  | atStart, c :: rest =>
    if ws c then
      (if atStart then [] else if keepWs word rest then [c] else []) ++
        normAux ws word false rest
    else
      c :: normAux ws word false rest

/-- Space normalisation applied to a string. -/
def normalizeSpace (ws word : Char → Bool) (s : String) : String :=
  ⟨normAux ws word true s.data⟩

/-- The `\s` class restricted to ASCII. -/
def asciiWs (c : Char) : Bool :=
  c = ' ' ∨ c = '\t' ∨ c = '\n' ∨ c = '\x0b' ∨ c = '\x0c' ∨ c = '\r'

/-- The `\w` class restricted to ASCII. -/
def asciiWord (c : Char) : Bool :=
  c.isAlphanum ∨ c = '_'

/-- Frame duration: WINDOW_SIZE = 0.01 s. -/
def WINDOW_SIZE : ℚ := 1 / 100

def SUBSAMPLING_FACTOR : ℕ := 8

structure TimestampedResult where
  text : String
  timestamps : List ℚ
  tokens : List String
deriving DecidableEq, Repr

/-- `ParakeetModel::decode_tokens`, parameterised by the `\s`/`\w`
classes of the space-normalisation regex. -/
def decode_tokens (ws word : Char → Bool) (vocab : List String)
    (ids : List ℕ) (timestamps : List ℕ) : TimestampedResult :=
  let tokens := ids.filterMap (fun id =>
    if h : id < vocab.length then some (vocab.get ⟨id, h⟩) else none)
  let text := normalizeSpace ws word (String.join tokens)
  let float_timestamps := timestamps.map
    (fun t : ℕ => WINDOW_SIZE * (SUBSAMPLING_FACTOR : ℚ) * (t : ℚ))
  { text := text, timestamps := float_timestamps, tokens := tokens }

/-! ## Vocabulary loader (`ParakeetModel::load_vocab`) -/

/-- Split a character list at a separator character (the semantics of
`str::split(char)`, which keeps empty pieces). -/
def splitCharAux (sep : Char) : List Char → List Char → List String
  | [], acc => [⟨acc.reverse⟩]
  | c :: rest, acc =>
    if c = sep then ⟨acc.reverse⟩ :: splitCharAux sep rest []
    else splitCharAux sep rest (c :: acc)

/-- Rust `str::split(sep)` for a one-character separator. -/
def splitChar (sep : Char) (s : String) : List String :=
  splitCharAux sep s.data []

/-- Rust `str::parse::<usize>`: optional leading `+`, then ASCII
digits only, value below 2⁶⁴. -/
def parseUsize (s : String) : Option ℕ :=
  let l := if s.data.head? = some '+' then s.data.tail else s.data
  if l ≠ [] ∧ l.all Char.isDigit then
    let n := l.foldl (fun acc c => acc * 10 + (c.toNat - 48)) 0
    if n < 2 ^ 64 then some n else none
  else none

/-- Rust `str::lines()`: split on `\n`, drop a final empty piece, and
strip one trailing `\r` from each line. -/
def rustLines (content : String) : List String :=
  let pieces := splitChar '\n' content
  let pieces := match pieces.getLast? with
    | some "" => pieces.dropLast
    | _ => pieces
  pieces.map (fun l =>
    if l.data.getLast? = some '\r' then ⟨l.data.dropLast⟩ else l)

/-- `token.replace('\u{2581}', " ")`: the one-character pattern makes
this a character map. -/
def replaceLowBar (s : String) : String :=
  ⟨s.data.map (fun c => if c = '▁' then ' ' else c)⟩

/-- Accumulator of the line loop of `load_vocab`:
`(max_id, tokens_with_ids, blank_idx)`. -/
def vocabLineStep (acc : ℕ × List (String × ℕ) × Option ℕ) (line : String) :
    ℕ × List (String × ℕ) × Option ℕ :=
  match splitChar (' ') line with
  | token :: idStr :: _ =>
    match parseUsize idStr with
    | some id =>
      (max acc.1 id, acc.2.1 ++ [(token, id)],
       if token = "<blk>" then some id else acc.2.2)
    | none => acc
  | _ => acc

/-- `ParakeetModel::load_vocab` on the file content.  Lines with fewer
than two space-separated parts, or with an unparsable id, are skipped.
The error is `InvalidData` ("Missing <blk> token in vocabulary"). -/
def load_vocab (content : String) : Except String (List String × ℕ) :=
  let acc := (rustLines content).foldl vocabLineStep (0, [], none)
  let vocab := acc.2.1.foldl
    (fun v (p : String × ℕ) => v.set p.2 (replaceLowBar p.1))
    (List.replicate (acc.1 + 1) "")
  match acc.2.2 with
  | some b => .ok (vocab, b)
  | none => .error "Missing <blk> token in vocabulary"

/-- Whether some line of the content is a parsable `<blk> <id>` entry
(this is what decides success of `load_vocab`). -/
def hasBlkLine (content : String) : Bool :=
  (rustLines content).any (fun line =>
    match splitChar (' ') line with
    | token :: idStr :: _ => token = "<blk>" && (parseUsize idStr).isSome
    | _ => false)

/-- The largest id among the parsed lines (`max_id` in the source). -/
def vocabMaxId (content : String) : ℕ :=
  ((rustLines content).foldl vocabLineStep (0, [], none)).1

/-- Spec-side predicate for claim C7: a line is unparsable when it does
not consist of a token, a space, and a parsable id. -/
def hasUnparsableLine (content : String) : Bool :=
  (rustLines content).any (fun line =>
    match splitChar (' ') line with
    | _ :: idStr :: _ => (parseUsize idStr).isNone
    | _ => true)

/-! ## Model file selection (engines/parakeet) -/

/-- Quantization type of `ParakeetModelParams` (engines/parakeet/engine.rs). -/
inductive QuantizationType where
  | FP32
  | Int8
deriving DecidableEq, Repr

structure ParakeetModelParams where
  quantization : QuantizationType
deriving DecidableEq, Repr

/-- The `quantized` flag computed in
`ParakeetEngine::load_model_with_params` (engines/parakeet/engine.rs). -/
def loadQuantizedFlag (params : ParakeetModelParams) : Bool :=
  match params.quantization with
  | .FP32 => false
  | .Int8 => true

/-- Modelled from the spec: `ParakeetModel::new` in
engines/parakeet/model.rs is absent from src/; per spec §4.C the three
session files are selected by the `quantized` flag, the preprocessor
being `nemo128.onnx` in both cases.  Returns
(encoder, decoder-joint, preprocessor) file names. -/
def sessionFiles (quantized : Bool) : String × String × String :=
  (if quantized then "encoder-model.int8.onnx" else "encoder-model.onnx",
   if quantized then "decoder_joint-model.int8.onnx" else "decoder_joint-model.onnx",
   "nemo128.onnx")

/-! ## WAV sample normalisation (src/audio.rs, src/lib.rs) -/

/-- `sample.map(|s| s as f32 / i16::MAX as f32)` for one sample. -/
def normalizeSample (s : ℤ) : ℚ :=
  (s : ℚ) / 32767

/-- The sample-conversion map of `read_wav_samples`. -/
def normalizeSamples (samples : List ℤ) : List ℚ :=
  samples.map normalizeSample

/-! ## Concrete fixtures used in counterexamples and witnesses -/

/-- A transcription result whose segment list is a chain of
near-duplicates: each consecutive pair is within 0.25 s at both
endpoints, so `merge_segments` collapses the whole list to its final
element, whose start (0.32) lies more than 1.5 s before the first
start (2.0). -/
def chainSegments : List Segment :=
  [⟨2, 9, "a"⟩, ⟨44/25, 9, "b"⟩, ⟨38/25, 9, "a"⟩, ⟨32/25, 9, "b"⟩,
   ⟨26/25, 9, "a"⟩, ⟨4/5, 9, "b"⟩, ⟨14/25, 9, "a"⟩, ⟨8/25, 9, "b"⟩]

/-- A transcriber returning the same result on every call. -/
def chainTranscriber : List ℚ → Option String → Except String TranscriptionResult :=
  fun _ _ => .ok ⟨"b", chainSegments⟩

/-- A transcriber that always fails. -/
def failingTranscriber : List ℚ → Option String → Except String TranscriptionResult :=
  fun _ _ => .error "mock failure"

/-- A fixed well-formed transcription result. -/
def witResult : TranscriptionResult :=
  ⟨"hello world", [⟨0, 3/2, "hello world"⟩]⟩

/-- A transcriber returning one fixed well-formed segment. -/
def helloTranscriber : List ℚ → Option String → Except String TranscriptionResult :=
  fun _ _ => .ok witResult

end TranscribeRS

deriving instance DecidableEq for Except

namespace TranscribeRS

/-! # Theorems -/

/-- Fields of the session that `push_samples` never touches. -/
theorem push_samples_keeps (s : Session) (inc : List ℚ) :
    (push_samples s inc).published_segments = s.published_segments ∧
    (push_samples s inc).published_text = s.published_text ∧
    (push_samples s inc).last_sent_segments = s.last_sent_segments ∧
    (push_samples s inc).last_sent_text = s.last_sent_text ∧
    (push_samples s inc).language = s.language ∧
    (push_samples s inc).sample_rate = s.sample_rate ∧
    (push_samples s inc).max_buffer_samples = s.max_buffer_samples ∧
    (push_samples s inc).timeline_offset =
      (if (s.samples ++ inc).length > s.max_buffer_samples then
        s.timeline_offset +
          (((s.samples ++ inc).length - s.max_buffer_samples : ℕ) : ℚ) /
            (s.sample_rate : ℚ)
      else s.timeline_offset) := by
  by_cases h : s.max_buffer_samples < s.samples.length + inc.length
  all_goals simp [push_samples, List.length_append, h]

/-- The buffer contents after `push_samples`: the appended buffer, with
its oldest samples dropped when oversize. -/
theorem push_samples_samples (s : Session) (inc : List ℚ) :
    (push_samples s inc).samples =
      (if s.max_buffer_samples < (s.samples ++ inc).length then
        (s.samples ++ inc).drop ((s.samples ++ inc).length - s.max_buffer_samples)
      else s.samples ++ inc) := by
  by_cases h : s.max_buffer_samples < s.samples.length + inc.length
  all_goals simp [push_samples, List.length_append, h]

/-- After `push_samples` the buffer respects the bound, whatever the
input. -/
theorem push_samples_length_le (s : Session) (inc : List ℚ) :
    (push_samples s inc).samples.length ≤ s.max_buffer_samples := by
  rw [push_samples_samples]
  by_cases h : s.max_buffer_samples < (s.samples ++ inc).length
  · rw [if_pos h, List.length_drop]
    omega
  · rw [if_neg h]
    omega

/-- `merge_segments` only rewrites `published_segments`. -/
theorem merge_segments_fields (s : Session) (ns : List Segment) :
    (merge_segments s ns).1.published_text = s.published_text ∧
    (merge_segments s ns).1.last_sent_segments = s.last_sent_segments ∧
    (merge_segments s ns).1.last_sent_text = s.last_sent_text ∧
    (merge_segments s ns).1.samples = s.samples ∧
    (merge_segments s ns).1.max_buffer_samples = s.max_buffer_samples ∧
    (merge_segments s ns).1.sample_rate = s.sample_rate ∧
    (merge_segments s ns).1.timeline_offset = s.timeline_offset ∧
    (merge_segments s ns).1.language = s.language := by
  by_cases h : ns.isEmpty
  all_goals simp [merge_segments, h]

/-- The `changed` flag of `merge_segments` records exactly whether the
published segments differ from before. -/
theorem merge_segments_changed (s : Session) (ns : List Segment) :
    ((merge_segments s ns).2 = true ↔
      (merge_segments s ns).1.published_segments ≠ s.published_segments) := by
  by_cases h : ns.isEmpty
  all_goals simp [merge_segments, h]

/-- `publish_update` establishes the text invariant and touches only
`published_text` and the last-sent cache. -/
theorem publish_update_state (s1 : Session) (c : Bool) :
    (publish_update s1 c).1.published_text =
      segments_to_text (publish_update s1 c).1.published_segments ∧
    (publish_update s1 c).1.published_segments = s1.published_segments ∧
    (publish_update s1 c).1.samples = s1.samples ∧
    (publish_update s1 c).1.max_buffer_samples = s1.max_buffer_samples ∧
    (publish_update s1 c).1.sample_rate = s1.sample_rate ∧
    (publish_update s1 c).1.timeline_offset = s1.timeline_offset ∧
    (publish_update s1 c).1.language = s1.language := by
  by_cases hagg : segments_to_text s1.published_segments ≠ s1.published_text
  · simp only [publish_update, if_pos hagg, if_true]
    simp
  · simp only [publish_update, if_neg hagg, if_false]
    push_neg at hagg
    split
    · exact ⟨hagg.symm, rfl, rfl, rfl, rfl, rfl, rfl⟩
    · exact ⟨hagg.symm, rfl, rfl, rfl, rfl, rfl, rfl⟩

/-- C2: after every inbound message the realtime-session invariants
hold (`|samples| ≤ max_buffer_samples` and `published_text` equals the
space-joined trimmed non-empty texts of `published_segments`), and an
oversize append drops exactly the excess from the front of the buffer
while advancing `timeline_offset` by `excess / sample_rate` seconds. -/
theorem realtime_invariants
    (T : List ℚ → Option String → Except String TranscriptionResult)
    (s : Session) (msg : InboundMessage)
    (hbuf : s.samples.length ≤ s.max_buffer_samples)
    (htext : s.published_text = segments_to_text s.published_segments) :
    ((handle_inbound T s msg).1.samples.length ≤
        (handle_inbound T s msg).1.max_buffer_samples ∧
      (handle_inbound T s msg).1.published_text =
        segments_to_text (handle_inbound T s msg).1.published_segments) ∧
    ∀ inc : List ℚ, s.max_buffer_samples < (s.samples ++ inc).length →
      (push_samples s inc).timeline_offset = s.timeline_offset +
        (((s.samples ++ inc).length - s.max_buffer_samples : ℕ) : ℚ) /
          (s.sample_rate : ℚ) ∧
      (push_samples s inc).samples =
        (s.samples ++ inc).drop ((s.samples ++ inc).length - s.max_buffer_samples) := by
  constructor
  · cases msg with
    | Chunk samples =>
      by_cases hemp : samples.isEmpty
      · simp only [handle_inbound, if_pos hemp]
        exact ⟨hbuf, htext⟩
      · simp only [handle_inbound, if_neg hemp]
        rcases hT : T (push_samples s samples).samples
            (push_samples s samples).language with err | r
        · refine ⟨?_, ?_⟩
          · have h1 := push_samples_length_le s samples
            have h2 := (push_samples_keeps s samples).2.2.2.2.2.2.1
            rw [h2]
            exact h1
          · have h1 := (push_samples_keeps s samples).1
            have h2 := (push_samples_keeps s samples).2.1
            rw [h1, h2]
            exact htext
        · set sp := push_samples s samples with hsp
          have hm := merge_segments_fields sp
            (r.segments.map (fun seg =>
              { seg with
                  start := seg.start + sp.timeline_offset
                  stop := seg.stop + sp.timeline_offset }))
          have hp := publish_update_state
            (merge_segments sp
              (r.segments.map (fun seg =>
                { seg with
                    start := seg.start + sp.timeline_offset
                    stop := seg.stop + sp.timeline_offset }))).1
            (merge_segments sp
              (r.segments.map (fun seg =>
                { seg with
                    start := seg.start + sp.timeline_offset
                    stop := seg.stop + sp.timeline_offset }))).2
          refine ⟨?_, ?_⟩
          · show (apply_result sp r).1.samples.length ≤
              (apply_result sp r).1.max_buffer_samples
            have e1 : (apply_result sp r).1.samples = sp.samples := by
              show (publish_update _ _).1.samples = sp.samples
              rw [hp.2.2.1, hm.2.2.2.1]
            have e2 : (apply_result sp r).1.max_buffer_samples =
                sp.max_buffer_samples := by
              show (publish_update _ _).1.max_buffer_samples = sp.max_buffer_samples
              rw [hp.2.2.2.1, hm.2.2.2.2.1]
            rw [e1, e2, hsp]
            rw [(push_samples_keeps s samples).2.2.2.2.2.2.1]
            exact push_samples_length_le s samples
          · show (apply_result sp r).1.published_text =
              segments_to_text (apply_result sp r).1.published_segments
            exact hp.1
    | Reset =>
      refine ⟨by simp [handle_inbound], ?_⟩
      simp only [handle_inbound]
      rfl
    | Flush =>
      by_cases hpub : s.published_segments.isEmpty ∧ s.published_text = ""
      · simp only [handle_inbound, if_pos hpub]
        exact ⟨hbuf, htext⟩
      · simp only [handle_inbound, if_neg hpub]
        exact ⟨hbuf, htext⟩
  · intro inc hover
    refine ⟨?_, ?_⟩
    · rw [(push_samples_keeps s inc).2.2.2.2.2.2.2, if_pos hover]
    · rw [push_samples_samples, if_pos hover]

/-- Witness for C2 on a concrete session and message. -/
theorem realtime_invariants_witness :
    ((handle_inbound failingTranscriber (Session.new none) InboundMessage.Reset).1.samples.length ≤
        (handle_inbound failingTranscriber (Session.new none) InboundMessage.Reset).1.max_buffer_samples ∧
      (handle_inbound failingTranscriber (Session.new none) InboundMessage.Reset).1.published_text =
        segments_to_text
          (handle_inbound failingTranscriber (Session.new none) InboundMessage.Reset).1.published_segments) ∧
    ∀ inc : List ℚ,
      (Session.new none).max_buffer_samples < ((Session.new none).samples ++ inc).length →
      (push_samples (Session.new none) inc).timeline_offset =
        (Session.new none).timeline_offset +
        ((((Session.new none).samples ++ inc).length -
            (Session.new none).max_buffer_samples : ℕ) : ℚ) /
          ((Session.new none).sample_rate : ℚ) ∧
      (push_samples (Session.new none) inc).samples =
        ((Session.new none).samples ++ inc).drop
          (((Session.new none).samples ++ inc).length -
            (Session.new none).max_buffer_samples) :=
  realtime_invariants failingTranscriber (Session.new none) InboundMessage.Reset
    (by decide) (by decide)

/-- Emission analysis of `publish_update`: assuming the last-sent cache
matches the state the merge started from, a `Transcript` is emitted iff
the published pair now differs from the last emission; and the output
is that singleton or nothing. -/
theorem publish_update_emits (s1 : Session) (c : Bool)
    (hc : c = true ↔ s1.published_segments ≠ s1.last_sent_segments)
    (htx : s1.last_sent_text = s1.published_text) :
    (((publish_update s1 c).2 =
        [OutboundMessage.Transcript (publish_update s1 c).1.published_text
          (publish_update s1 c).1.published_segments]) ↔
      ¬((publish_update s1 c).1.published_segments = s1.last_sent_segments ∧
        (publish_update s1 c).1.published_text = s1.last_sent_text)) ∧
    ((publish_update s1 c).2 =
        [OutboundMessage.Transcript (publish_update s1 c).1.published_text
          (publish_update s1 c).1.published_segments] ∨
      (publish_update s1 c).2 = []) := by
  by_cases hagg : segments_to_text s1.published_segments ≠ s1.published_text
  · simp only [publish_update, if_pos hagg, if_true]
    simp only [true_or, if_pos, reduceIte]
    constructor
    · constructor
      · intro _ hpair
        exact hagg (hpair.2.trans htx)
      · intro _
        trivial
    · trivial
  · simp only [publish_update, if_neg hagg, if_false]
    push_neg at hagg
    by_cases hcond : c = true ∨ s1.published_segments ≠ s1.last_sent_segments ∨
        s1.published_text ≠ s1.last_sent_text
    · simp only [if_pos hcond]
      constructor
      · constructor
        · intro _ hpair
          rcases hcond with h | h | h
          · exact (hc.1 h) hpair.1
          · exact h hpair.1
          · exact h hpair.2
        · intro _
          trivial
      · exact Or.inl trivial
    · simp only [if_neg hcond]
      push_neg at hcond
      obtain ⟨hcf, hseg, htxt⟩ := hcond
      constructor
      · constructor
        · intro habs
          exact absurd habs (by simp)
        · intro hpair
          exact absurd ⟨hseg, htxt⟩ hpair
      · exact Or.inr trivial

/-- After `publish_update` the last-sent cache equals the published
pair (in the emission branch by assignment, otherwise because nothing
differed). -/
theorem publish_update_sync (s1 : Session) (c : Bool) :
    (publish_update s1 c).1.last_sent_segments =
      (publish_update s1 c).1.published_segments ∧
    (publish_update s1 c).1.last_sent_text =
      (publish_update s1 c).1.published_text := by
  by_cases hagg : segments_to_text s1.published_segments ≠ s1.published_text
  · simp [publish_update, if_pos hagg]
  · simp only [publish_update, if_neg hagg, if_false]
    by_cases hcond : c = true ∨ s1.published_segments ≠ s1.last_sent_segments ∨
        s1.published_text ≠ s1.last_sent_text
    · simp [if_pos hcond]
    · simp only [if_neg hcond]
      push_neg at hcond
      exact ⟨hcond.2.1.symm, hcond.2.2.symm⟩

/-- Unfolding of the successful-chunk path. -/
theorem handle_chunk_ok
    (T : List ℚ → Option String → Except String TranscriptionResult)
    (s : Session) (samples : List ℚ) (r : TranscriptionResult)
    (hemp : samples.isEmpty = false)
    (hT : T (push_samples s samples).samples (push_samples s samples).language =
      .ok r) :
    handle_inbound T s (.Chunk samples) = apply_result (push_samples s samples) r := by
  simp only [handle_inbound, hemp, Bool.false_eq_true, if_false, hT]

/-- C1 (amended, part A): for a successful chunk on a session whose
last-sent cache matches its published state, exactly one `Transcript`
is emitted iff the merged `(published_segments, published_text)` pair
differs from the last emission. -/
theorem chunk_ok_emits_iff
    (T : List ℚ → Option String → Except String TranscriptionResult)
    (s : Session) (samples : List ℚ) (r : TranscriptionResult)
    (hemp : samples.isEmpty = false)
    (hsg : s.last_sent_segments = s.published_segments)
    (htx : s.last_sent_text = s.published_text)
    (hT : T (push_samples s samples).samples (push_samples s samples).language =
      .ok r) :
    (((handle_inbound T s (.Chunk samples)).2 =
        [OutboundMessage.Transcript
          (handle_inbound T s (.Chunk samples)).1.published_text
          (handle_inbound T s (.Chunk samples)).1.published_segments]) ↔
      ¬((handle_inbound T s (.Chunk samples)).1.published_segments =
          s.last_sent_segments ∧
        (handle_inbound T s (.Chunk samples)).1.published_text =
          s.last_sent_text)) ∧
    ((handle_inbound T s (.Chunk samples)).2 =
        [OutboundMessage.Transcript
          (handle_inbound T s (.Chunk samples)).1.published_text
          (handle_inbound T s (.Chunk samples)).1.published_segments] ∨
      (handle_inbound T s (.Chunk samples)).2 = []) := by
  rw [handle_chunk_ok T s samples r hemp hT]
  set sp := push_samples s samples with hsp
  have hkeep := push_samples_keeps s samples
  rw [← hsp] at hkeep
  set A := r.segments.map (fun seg =>
    { seg with
        start := seg.start + sp.timeline_offset
        stop := seg.stop + sp.timeline_offset }) with hA
  have hmf := merge_segments_fields sp A
  have happ : apply_result sp r =
      publish_update (merge_segments sp A).1 (merge_segments sp A).2 := rfl
  rw [happ]
  have hc : (merge_segments sp A).2 = true ↔
      (merge_segments sp A).1.published_segments =
        (merge_segments sp A).1.last_sent_segments → False := by
    rw [merge_segments_changed sp A, hmf.2.1]
    have hspp : sp.last_sent_segments = sp.published_segments := by
      rw [hkeep.2.2.1, hsg, ← hkeep.1]
    rw [hspp]
  have htx2 : (merge_segments sp A).1.last_sent_text =
      (merge_segments sp A).1.published_text := by
    rw [hmf.2.2.1, hmf.1, hkeep.2.2.2.1, hkeep.2.1, htx]
  have hmain := publish_update_emits (merge_segments sp A).1 (merge_segments sp A).2
    hc htx2
  have hls : (merge_segments sp A).1.last_sent_segments = s.last_sent_segments := by
    rw [hmf.2.1, hkeep.2.2.1]
  have hlt : (merge_segments sp A).1.last_sent_text = s.last_sent_text := by
    rw [hmf.2.2.1, hkeep.2.2.2.1]
  rw [hls, hlt] at hmain
  exact hmain

/-- A merge step never empties the published list. -/
theorem mergeStep_ne_nil (published : List Segment) (segment : Segment) :
    mergeStep published segment ≠ [] := by
  unfold mergeStep
  rcases hlast : published.getLast? with _ | last
  · simp
  · have hne : published ≠ [] := by
      intro h
      rw [h] at hlast
      cases hlast
    show ¬(if |last.start - segment.start| < 1/4 ∧ |last.stop - segment.stop| < 1/4 then
        (if last.text ≠ segment.text ∨ f32Epsilon ≤ |last.start - segment.start| ∨
            f32Epsilon ≤ |last.stop - segment.stop| then
          published.dropLast ++ [segment]
        else published)
      else published ++ [segment]) = []
    split
    · split
      · simp
      · exact hne
    · simp

/-- The merge fold never empties a non-empty start, nor stays empty on
non-empty input. -/
theorem mergeLoop_ne_nil (ns : List Segment) :
    ∀ published : List Segment, published ≠ [] ∨ ns ≠ [] →
      mergeLoop published ns ≠ [] := by
  induction ns with
  | nil =>
    intro published h
    rcases h with h | h
    · exact h
    · exact absurd rfl h
  | cons seg rest ih =>
    intro published _
    exact ih (mergeStep published seg) (Or.inl (mergeStep_ne_nil published seg))

/-- Every element a merge step produces comes from the previous list or
is the new segment. -/
theorem mergeStep_mem (published : List Segment) (segment : Segment) :
    ∀ x ∈ mergeStep published segment, x ∈ published ∨ x = segment := by
  intro x hx
  unfold mergeStep at hx
  rcases hlast : published.getLast? with _ | last
  · rw [hlast] at hx
    rcases List.mem_append.mp hx with h | h
    · exact Or.inl h
    · exact Or.inr (List.mem_singleton.mp h)
  · rw [hlast] at hx
    replace hx : x ∈ (if |last.start - segment.start| < 1/4 ∧
        |last.stop - segment.stop| < 1/4 then
        (if last.text ≠ segment.text ∨ f32Epsilon ≤ |last.start - segment.start| ∨
            f32Epsilon ≤ |last.stop - segment.stop| then
          published.dropLast ++ [segment]
        else published)
      else published ++ [segment]) := hx
    split at hx
    · split at hx
      · rcases List.mem_append.mp hx with h | h
        · exact Or.inl (List.dropLast_subset published h)
        · exact Or.inr (List.mem_singleton.mp h)
      · exact Or.inl hx
    · rcases List.mem_append.mp hx with h | h
      · exact Or.inl h
      · exact Or.inr (List.mem_singleton.mp h)

/-- Every element of the merge fold comes from the start list or the
new segments. -/
theorem mergeLoop_mem (ns : List Segment) :
    ∀ published : List Segment, ∀ x ∈ mergeLoop published ns,
      x ∈ published ∨ x ∈ ns := by
  induction ns with
  | nil => intro published x hx; exact Or.inl hx
  | cons seg rest ih =>
    intro published x hx
    rcases ih (mergeStep published seg) x hx with h | h
    · rcases mergeStep_mem published seg x h with h2 | h2
      · exact Or.inl h2
      · exact Or.inr (by rw [h2]; exact List.mem_cons_self seg rest)
    · exact Or.inr (List.mem_cons_of_mem seg h)

/-- `push_samples` without overflow just appends. -/
theorem push_samples_no_trim (s : Session) (inc : List ℚ)
    (h : (s.samples ++ inc).length ≤ s.max_buffer_samples) :
    push_samples s inc = { s with samples := s.samples ++ inc } := by
  simp only [push_samples]
  rw [if_neg (not_lt.2 h)]

/-- Shifting segments by a zero timeline offset is the identity. -/
theorem map_adjust_zero (l : List Segment) :
    l.map (fun seg =>
      ({ seg with start := seg.start + 0, stop := seg.stop + 0 } : Segment)) = l := by
  induction l with
  | nil => rfl
  | cons x xs ih =>
    cases x with
    | mk a b t => simp [ih]

/-- Merging into an empty published list folds the new segments from
scratch and reports a change. -/
theorem merge_from_empty (s : Session) (ns : List Segment)
    (hpub : s.published_segments = []) (hne : ns.isEmpty = false) :
    merge_segments s ns =
      ({ s with published_segments := mergeLoop [] ns }, true) := by
  have hne2 : ns ≠ [] := by
    intro h
    rw [h] at hne
    cases hne
  simp only [merge_segments, hne, Bool.false_eq_true, if_false, hpub]
  simp only [List.findIdx?_nil, Option.getD_none, List.length_nil, lt_irrefl,
    if_false]
  have hn : mergeLoop [] ns ≠ [] := mergeLoop_ne_nil ns [] (Or.inr hne2)
  simp [hn]

/-- Re-merging the same segments when the published list is exactly
their fold and all of them start at or after the cutoff reproduces the
published list with no change. -/
theorem merge_reapply (s : Session) (ns : List Segment)
    (hne : ns.isEmpty = false)
    (hpub : s.published_segments = mergeLoop [] ns)
    (hge : ∀ seg ∈ ns,
      max ((ns.head?.map (fun seg0 => seg0.start - 3/2)).getD 0)
        s.timeline_offset ≤ seg.start) :
    merge_segments s ns = ({ s with published_segments := mergeLoop [] ns }, false) := by
  have hne2 : ns ≠ [] := by
    intro h
    rw [h] at hne
    cases hne
  simp only [merge_segments, hne, Bool.false_eq_true, if_false, hpub]
  rcases hL : mergeLoop [] ns with _ | ⟨L0, Lt⟩
  · exact absurd hL (mergeLoop_ne_nil ns [] (Or.inr hne2))
  · have hL0 : L0 ∈ ns := by
      have : L0 ∈ mergeLoop [] ns := by
        rw [hL]
        exact List.mem_cons_self L0 Lt
      rcases mergeLoop_mem ns [] L0 this with h | h
      · cases h
      · exact h
    have hp : decide (max ((ns.head?.map (fun seg0 => seg0.start - 3/2)).getD 0)
        s.timeline_offset ≤ L0.start) = true := decide_eq_true (hge L0 hL0)
    simp only [List.findIdx?_cons, hp, if_true, Option.getD_some, List.length_cons]
    rw [if_pos (Nat.succ_pos _), List.take_zero, hL]
    simp

/-- `publish_update` with the changed flag set always emits, updating
the text and last-sent cache. -/
theorem publish_update_true (s1 : Session) :
    publish_update s1 true =
      ({ s1 with
          published_text := segments_to_text s1.published_segments
          last_sent_segments := s1.published_segments
          last_sent_text := segments_to_text s1.published_segments },
       [OutboundMessage.Transcript (segments_to_text s1.published_segments)
         s1.published_segments]) := by
  by_cases hagg : segments_to_text s1.published_segments ≠ s1.published_text
  · simp [publish_update, if_pos hagg]
  · push_neg at hagg
    simp only [publish_update, if_neg (by rw [hagg]; exact fun h => h rfl :
      ¬segments_to_text s1.published_segments ≠ s1.published_text)]
    simp [hagg]

/-- `publish_update` with no change on a synced session emits nothing
and leaves the state alone. -/
theorem publish_update_false_synced (s1 : Session)
    (hg : s1.last_sent_segments = s1.published_segments)
    (ht : s1.last_sent_text = s1.published_text)
    (hagg : segments_to_text s1.published_segments = s1.published_text) :
    publish_update s1 false = (s1, []) := by
  simp only [publish_update,
    if_neg (by rw [hagg]; exact fun h => h rfl :
      ¬segments_to_text s1.published_segments ≠ s1.published_text)]
  rw [if_neg]
  simp only [not_or]
  refine ⟨by simp, fun h => h hg.symm, fun h => h ht.symm⟩

/-- C1 (amended, part B): from a fresh session, two consecutive chunks
whose transcriptions yield the same result emit a `Transcript` for the
first chunk and nothing for the second, provided the result's segments
have non-decreasing start times, a non-negative first start, and the
buffer does not overflow. -/
theorem identical_chunks_no_reemit
    (T : List ℚ → Option String → Except String TranscriptionResult)
    (s0 : Session) (samples₁ samples₂ : List ℚ) (r : TranscriptionResult)
    (hsamp : s0.samples = []) (hoff : s0.timeline_offset = 0)
    (hpub : s0.published_segments = [])
    (h1 : samples₁.isEmpty = false) (h2 : samples₂.isEmpty = false)
    (hlen : samples₁.length + samples₂.length ≤ s0.max_buffer_samples)
    (hne : r.segments ≠ [])
    (hsorted : r.segments.Chain' (fun a b => a.start ≤ b.start))
    (hfirst : ∀ h0 ∈ r.segments.head?, 0 ≤ h0.start)
    (hT1 : T samples₁ s0.language = .ok r)
    (hT2 : T (samples₁ ++ samples₂) s0.language = .ok r) :
    (handle_inbound T s0 (.Chunk samples₁)).2 =
      [OutboundMessage.Transcript
        (handle_inbound T s0 (.Chunk samples₁)).1.published_text
        (handle_inbound T s0 (.Chunk samples₁)).1.published_segments] ∧
    (handle_inbound T (handle_inbound T s0 (.Chunk samples₁)).1
      (.Chunk samples₂)).2 = [] := by
  have hneB : r.segments.isEmpty = false := by
    rcases hseg : r.segments with _ | _
    · exact absurd hseg hne
    · rfl
  have hge0 : ∀ seg ∈ r.segments,
      max ((r.segments.head?.map (fun seg0 => seg0.start - 3/2)).getD 0) 0 ≤
        seg.start := by
    haveI : IsTrans Segment (fun a b : Segment => a.start ≤ b.start) :=
      ⟨fun _ _ _ => le_trans⟩
    rcases hsegs : r.segments with _ | ⟨a, t⟩
    · intro seg hs
      cases hs
    · have hpw := List.chain'_iff_pairwise.mp (hsegs ▸ hsorted)
      have h0a : (0 : ℚ) ≤ a.start := by
        have := hfirst a
        rw [hsegs] at this
        exact this (by simp)
      intro seg hs
      have hstart : a.start ≤ seg.start := by
        rcases List.mem_cons.mp hs with rfl | hmem
        · exact le_refl _
        · exact (List.pairwise_cons.mp hpw).1 seg hmem
      simp only [List.head?_cons, Option.map_some, Option.getD_some]
      apply max_le
      · calc a.start - 3/2 ≤ a.start := by linarith
          _ ≤ seg.start := hstart
      · exact le_trans h0a hstart
  -- first chunk
  have hlen1 : (s0.samples ++ samples₁).length ≤ s0.max_buffer_samples := by
    rw [hsamp]
    simp only [List.nil_append]
    omega
  have hp1 : push_samples s0 samples₁ = { s0 with samples := s0.samples ++ samples₁ } :=
    push_samples_no_trim s0 samples₁ hlen1
  have hT1x : T (push_samples s0 samples₁).samples
      (push_samples s0 samples₁).language = .ok r := by
    rw [hp1]
    show T (s0.samples ++ samples₁) s0.language = .ok r
    rw [hsamp, List.nil_append]
    exact hT1
  have hrun1 : handle_inbound T s0 (.Chunk samples₁) =
      apply_result (push_samples s0 samples₁) r :=
    handle_chunk_ok T s0 samples₁ r h1 hT1x
  have hoff1 : (push_samples s0 samples₁).timeline_offset = 0 := by
    rw [hp1]
    exact hoff
  have hpub1 : (push_samples s0 samples₁).published_segments = [] := by
    rw [hp1]
    exact hpub
  have hA1 : r.segments.map (fun seg =>
      ({ seg with
          start := seg.start + (push_samples s0 samples₁).timeline_offset
          stop := seg.stop + (push_samples s0 samples₁).timeline_offset } :
        Segment)) = r.segments := by
    simp only [hoff1]
    exact map_adjust_zero r.segments
  have happ1 : apply_result (push_samples s0 samples₁) r =
      publish_update (merge_segments (push_samples s0 samples₁) r.segments).1
        (merge_segments (push_samples s0 samples₁) r.segments).2 := by
    simp only [apply_result]
    rw [hA1]
  have hm1 : merge_segments (push_samples s0 samples₁) r.segments =
      ({ push_samples s0 samples₁ with
          published_segments := mergeLoop [] r.segments }, true) :=
    merge_from_empty (push_samples s0 samples₁) r.segments hpub1 hneB
  have hres1 : handle_inbound T s0 (.Chunk samples₁) =
      ({ push_samples s0 samples₁ with
          published_segments := mergeLoop [] r.segments
          published_text := segments_to_text (mergeLoop [] r.segments)
          last_sent_segments := mergeLoop [] r.segments
          last_sent_text := segments_to_text (mergeLoop [] r.segments) },
       [OutboundMessage.Transcript (segments_to_text (mergeLoop [] r.segments))
         (mergeLoop [] r.segments)]) := by
    rw [hrun1, happ1, hm1]
    rw [publish_update_true]
  refine ⟨by rw [hres1], ?_⟩
  -- second chunk
  rw [hres1]
  set σ1 : Session :=
    { push_samples s0 samples₁ with
        published_segments := mergeLoop [] r.segments
        published_text := segments_to_text (mergeLoop [] r.segments)
        last_sent_segments := mergeLoop [] r.segments
        last_sent_text := segments_to_text (mergeLoop [] r.segments) } with hσ1
  have hσsamples : σ1.samples = samples₁ := by
    rw [hσ1]
    show (push_samples s0 samples₁).samples = samples₁
    rw [hp1]
    show s0.samples ++ samples₁ = samples₁
    rw [hsamp, List.nil_append]
  have hσoff : σ1.timeline_offset = 0 := by
    rw [hσ1]
    exact hoff1
  have hσmax : σ1.max_buffer_samples = s0.max_buffer_samples := by
    rw [hσ1, hp1]
  have hσlang : σ1.language = s0.language := by
    rw [hσ1, hp1]
  have hlen2 : (σ1.samples ++ samples₂).length ≤ σ1.max_buffer_samples := by
    rw [hσsamples, hσmax]
    simp only [List.length_append]
    omega
  have hp2 : push_samples σ1 samples₂ = { σ1 with samples := σ1.samples ++ samples₂ } :=
    push_samples_no_trim σ1 samples₂ hlen2
  have hT2x : T (push_samples σ1 samples₂).samples
      (push_samples σ1 samples₂).language = .ok r := by
    rw [hp2]
    show T (σ1.samples ++ samples₂) σ1.language = .ok r
    rw [hσsamples, hσlang]
    exact hT2
  have hrun2 : handle_inbound T σ1 (.Chunk samples₂) =
      apply_result (push_samples σ1 samples₂) r :=
    handle_chunk_ok T σ1 samples₂ r h2 hT2x
  have hoff2 : (push_samples σ1 samples₂).timeline_offset = 0 := by
    rw [hp2]
    exact hσoff
  have hA2 : r.segments.map (fun seg =>
      ({ seg with
          start := seg.start + (push_samples σ1 samples₂).timeline_offset
          stop := seg.stop + (push_samples σ1 samples₂).timeline_offset } :
        Segment)) = r.segments := by
    simp only [hoff2]
    exact map_adjust_zero r.segments
  have happ2 : apply_result (push_samples σ1 samples₂) r =
      publish_update (merge_segments (push_samples σ1 samples₂) r.segments).1
        (merge_segments (push_samples σ1 samples₂) r.segments).2 := by
    simp only [apply_result]
    rw [hA2]
  have hpub2 : (push_samples σ1 samples₂).published_segments =
      mergeLoop [] r.segments := by
    rw [hp2]
  have hge2 : ∀ seg ∈ r.segments,
      max ((r.segments.head?.map (fun seg0 => seg0.start - 3/2)).getD 0)
        (push_samples σ1 samples₂).timeline_offset ≤ seg.start := by
    rw [hoff2]
    exact hge0
  have hm2 : merge_segments (push_samples σ1 samples₂) r.segments =
      ({ push_samples σ1 samples₂ with
          published_segments := mergeLoop [] r.segments }, false) :=
    merge_reapply (push_samples σ1 samples₂) r.segments hneB hpub2 hge2
  have hfin : publish_update
      ({ push_samples σ1 samples₂ with
          published_segments := mergeLoop [] r.segments }) false =
      ({ push_samples σ1 samples₂ with
          published_segments := mergeLoop [] r.segments }, []) := by
    apply publish_update_false_synced
    · show (push_samples σ1 samples₂).last_sent_segments = mergeLoop [] r.segments
      rw [hp2]
    · show (push_samples σ1 samples₂).last_sent_text =
        ({ push_samples σ1 samples₂ with
            published_segments := mergeLoop [] r.segments} : Session).published_text
      rw [hp2]
    · show segments_to_text (mergeLoop [] r.segments) =
        ({ push_samples σ1 samples₂ with
            published_segments := mergeLoop [] r.segments} : Session).published_text
      rw [hp2]
  rw [hrun2, happ2, hm2, hfin]

/-- The sync invariant `last_sent = published` is preserved by every
inbound message; it holds in all reachable states. -/
theorem handle_inbound_sync
    (T : List ℚ → Option String → Except String TranscriptionResult)
    (s : Session) (msg : InboundMessage)
    (hsg : s.last_sent_segments = s.published_segments)
    (htx : s.last_sent_text = s.published_text) :
    (handle_inbound T s msg).1.last_sent_segments =
      (handle_inbound T s msg).1.published_segments ∧
    (handle_inbound T s msg).1.last_sent_text =
      (handle_inbound T s msg).1.published_text := by
  cases msg with
  | Chunk samples =>
    by_cases hemp : samples.isEmpty
    · simp only [handle_inbound, if_pos hemp]
      exact ⟨hsg, htx⟩
    · simp only [handle_inbound, hemp, Bool.false_eq_true, if_false]
      rcases hT : T (push_samples s samples).samples
          (push_samples s samples).language with err | r
      · have hk := push_samples_keeps s samples
        exact ⟨by rw [hk.2.2.1, hk.1, hsg], by rw [hk.2.2.2.1, hk.2.1, htx]⟩
      · exact publish_update_sync _ _
  | Reset => simp [handle_inbound]
  | Flush =>
    by_cases hpub : s.published_segments.isEmpty ∧ s.published_text = ""
    · simp only [handle_inbound, if_pos hpub]
      exact ⟨hsg, htx⟩
    · simp only [handle_inbound, if_neg hpub]
      exact ⟨hsg, htx⟩

/-- C1 (amended): (i) on any session whose last-sent cache matches its
published state — an invariant of all reachable states, preserved per
(iii) — a successful chunk emits exactly one `Transcript` iff the
merged `(published_segments, published_text)` differs from the last
emission, and emits nothing otherwise; (ii) from a fresh session, two
consecutive chunks with identical transcription results emit once then
nothing, provided the segments have non-decreasing starts with a
non-negative first start and no trimming occurs (without these
conditions a second emission is possible, see the counterexample);
(iii) every message preserves the invariant. -/
theorem realtime_emission_spec :
    (∀ (T : List ℚ → Option String → Except String TranscriptionResult)
      (s : Session) (samples : List ℚ) (r : TranscriptionResult),
      samples.isEmpty = false →
      s.last_sent_segments = s.published_segments →
      s.last_sent_text = s.published_text →
      T (push_samples s samples).samples (push_samples s samples).language =
        .ok r →
      (((handle_inbound T s (.Chunk samples)).2 =
          [OutboundMessage.Transcript
            (handle_inbound T s (.Chunk samples)).1.published_text
            (handle_inbound T s (.Chunk samples)).1.published_segments]) ↔
        ¬((handle_inbound T s (.Chunk samples)).1.published_segments =
            s.last_sent_segments ∧
          (handle_inbound T s (.Chunk samples)).1.published_text =
            s.last_sent_text)) ∧
      ((handle_inbound T s (.Chunk samples)).2 =
          [OutboundMessage.Transcript
            (handle_inbound T s (.Chunk samples)).1.published_text
            (handle_inbound T s (.Chunk samples)).1.published_segments] ∨
        (handle_inbound T s (.Chunk samples)).2 = [])) ∧
    (∀ (T : List ℚ → Option String → Except String TranscriptionResult)
      (s0 : Session) (samples₁ samples₂ : List ℚ) (r : TranscriptionResult),
      s0.samples = [] → s0.timeline_offset = 0 → s0.published_segments = [] →
      samples₁.isEmpty = false → samples₂.isEmpty = false →
      samples₁.length + samples₂.length ≤ s0.max_buffer_samples →
      r.segments ≠ [] →
      r.segments.Chain' (fun a b => a.start ≤ b.start) →
      (∀ h0 ∈ r.segments.head?, 0 ≤ h0.start) →
      T samples₁ s0.language = .ok r →
      T (samples₁ ++ samples₂) s0.language = .ok r →
      (handle_inbound T s0 (.Chunk samples₁)).2 =
        [OutboundMessage.Transcript
          (handle_inbound T s0 (.Chunk samples₁)).1.published_text
          (handle_inbound T s0 (.Chunk samples₁)).1.published_segments] ∧
      (handle_inbound T (handle_inbound T s0 (.Chunk samples₁)).1
        (.Chunk samples₂)).2 = []) ∧
    (∀ (T : List ℚ → Option String → Except String TranscriptionResult)
      (s : Session) (msg : InboundMessage),
      s.last_sent_segments = s.published_segments →
      s.last_sent_text = s.published_text →
      (handle_inbound T s msg).1.last_sent_segments =
        (handle_inbound T s msg).1.published_segments ∧
      (handle_inbound T s msg).1.last_sent_text =
        (handle_inbound T s msg).1.published_text) := by
  refine ⟨?_, ?_, ?_⟩
  · intro T s samples r h1 h2 h3 h4
    exact chunk_ok_emits_iff T s samples r h1 h2 h3 h4
  · intro T s0 samples₁ samples₂ r g1 g2 g3 g4 g5 g6 g7 g8 g9 g10 g11
    exact identical_chunks_no_reemit T s0 samples₁ samples₂ r g1 g2 g3 g4 g5 g6
      g7 g8 g9 g10 g11
  · intro T s msg h1 h2
    exact handle_inbound_sync T s msg h1 h2

/-- Witness for C1's amended theorem at concrete inputs. -/
theorem realtime_emission_spec_witness :
    ((((handle_inbound helloTranscriber (Session.new none) (.Chunk [0])).2 =
        [OutboundMessage.Transcript
          (handle_inbound helloTranscriber (Session.new none)
            (.Chunk [0])).1.published_text
          (handle_inbound helloTranscriber (Session.new none)
            (.Chunk [0])).1.published_segments]) ↔
      ¬((handle_inbound helloTranscriber (Session.new none)
            (.Chunk [0])).1.published_segments =
          (Session.new none).last_sent_segments ∧
        (handle_inbound helloTranscriber (Session.new none)
            (.Chunk [0])).1.published_text =
          (Session.new none).last_sent_text)) ∧
      ((handle_inbound helloTranscriber (Session.new none) (.Chunk [0])).2 =
          [OutboundMessage.Transcript
            (handle_inbound helloTranscriber (Session.new none)
              (.Chunk [0])).1.published_text
            (handle_inbound helloTranscriber (Session.new none)
              (.Chunk [0])).1.published_segments] ∨
        (handle_inbound helloTranscriber (Session.new none) (.Chunk [0])).2 = [])) ∧
    ((handle_inbound helloTranscriber (Session.new none) (.Chunk [0])).2 =
        [OutboundMessage.Transcript
          (handle_inbound helloTranscriber (Session.new none)
            (.Chunk [0])).1.published_text
          (handle_inbound helloTranscriber (Session.new none)
            (.Chunk [0])).1.published_segments] ∧
      (handle_inbound helloTranscriber
        (handle_inbound helloTranscriber (Session.new none) (.Chunk [0])).1
        (.Chunk [0])).2 = []) ∧
    ((handle_inbound helloTranscriber (Session.new none)
        InboundMessage.Reset).1.last_sent_segments =
      (handle_inbound helloTranscriber (Session.new none)
        InboundMessage.Reset).1.published_segments ∧
      (handle_inbound helloTranscriber (Session.new none)
        InboundMessage.Reset).1.last_sent_text =
      (handle_inbound helloTranscriber (Session.new none)
        InboundMessage.Reset).1.published_text) :=
  ⟨realtime_emission_spec.1 helloTranscriber (Session.new none) [0] witResult
      rfl rfl rfl rfl,
   realtime_emission_spec.2.1 helloTranscriber (Session.new none) [0] [0]
      witResult rfl rfl rfl rfl rfl (by decide) (by simp [witResult])
      (by simp [witResult]) (by simp [witResult]) rfl rfl,
   realtime_emission_spec.2.2 helloTranscriber (Session.new none)
      InboundMessage.Reset rfl rfl⟩

/-- C9: the WAV sample normalisation maps s to s / 32767: `i16::MAX`
maps to exactly 1, `i16::MIN` maps within one quantum (1/32767) of −1,
and an all-zero buffer maps to all zeros. -/
theorem wav_normalization_bounds :
    normalizeSample 32767 = 1 ∧
    |normalizeSample (-32768) - (-1)| ≤ 1 / 32767 ∧
    ∀ n : ℕ, normalizeSamples (List.replicate n 0) = List.replicate n 0 := by
  refine ⟨by norm_num [normalizeSample], ?_,
    fun n => by simp [normalizeSamples, normalizeSample]⟩
  have h : normalizeSample (-32768) - (-1) = -(1 / 32767) := by
    norm_num [normalizeSample]
  rw [h, abs_neg, abs_of_pos (by norm_num)]

/-- C10: a `Chunk` whose transcription fails produces exactly one
`Error` outbound message; the published and last-sent state are
untouched, but the chunk's samples stay appended to the buffer with
any trimming and timeline-offset advance already applied. -/
theorem chunk_error_leaves_state
    (T : List ℚ → Option String → Except String TranscriptionResult)
    (s : Session) (samples : List ℚ) (err : String)
    (hne : samples.isEmpty = false)
    (herr : T (push_samples s samples).samples (push_samples s samples).language =
      .error err) :
    handle_inbound T s (.Chunk samples) =
      (push_samples s samples,
       [OutboundMessage.Error ("transcription failed: " ++ err)]) ∧
    (push_samples s samples).published_segments = s.published_segments ∧
    (push_samples s samples).published_text = s.published_text ∧
    (push_samples s samples).last_sent_segments = s.last_sent_segments ∧
    (push_samples s samples).last_sent_text = s.last_sent_text := by
  constructor
  · simp only [handle_inbound, hne, Bool.false_eq_true, if_false, herr]
  · have h := push_samples_keeps s samples
    exact ⟨h.1, h.2.1, h.2.2.1, h.2.2.2.1⟩

/-- Witness for C10 at concrete inputs. -/
theorem chunk_error_leaves_state_witness :
    handle_inbound failingTranscriber (Session.new none) (.Chunk [0]) =
      (push_samples (Session.new none) [0],
       [OutboundMessage.Error ("transcription failed: " ++ "mock failure")]) ∧
    (push_samples (Session.new none) [0]).published_segments =
      (Session.new none).published_segments ∧
    (push_samples (Session.new none) [0]).published_text =
      (Session.new none).published_text ∧
    (push_samples (Session.new none) [0]).last_sent_segments =
      (Session.new none).last_sent_segments ∧
    (push_samples (Session.new none) [0]).last_sent_text =
      (Session.new none).last_sent_text :=
  chunk_error_leaves_state failingTranscriber (Session.new none) [0] "mock failure"
    rfl rfl

/-- C6: file names selected by the `quantized` flag: FP32 loads
`encoder-model.onnx` / `decoder_joint-model.onnx`, Int8 loads the
`.int8` variants; the preprocessor is `nemo128.onnx` in both cases. -/
theorem parakeet_session_files :
    sessionFiles (loadQuantizedFlag ⟨QuantizationType.FP32⟩) =
      ("encoder-model.onnx", "decoder_joint-model.onnx", "nemo128.onnx") ∧
    sessionFiles (loadQuantizedFlag ⟨QuantizationType.Int8⟩) =
      ("encoder-model.int8.onnx", "decoder_joint-model.int8.onnx", "nemo128.onnx") ∧
    ∀ quantized : Bool, (sessionFiles quantized).2.2 = "nemo128.onnx" :=
  ⟨rfl, rfl, fun _ => rfl⟩

unseal Rat.mul Rat.inv Rat.add Rat.sub in
/-- C1 counterexample: two consecutive chunks with identical
transcription results (same text, same segment list, via a constant
transcriber) both emit a `Transcript`: the claim that the second chunk
produces no emission is false. -/
theorem identical_chunks_reemit_counterexample :
    (handle_inbound chainTranscriber (Session.new none) (.Chunk [0])).2 =
      [OutboundMessage.Transcript "b" [⟨8/25, 9, "b"⟩]] ∧
    (handle_inbound chainTranscriber
      (handle_inbound chainTranscriber (Session.new none) (.Chunk [0])).1
      (.Chunk [0])).2 ≠ [] := by
  decide

/-- C4 counterexample: on the tie `[1, 1]` the code selects index 1
(the claim demands the smallest index 0), and on `[5, NaN]` the NaN at
index 1 is selected (the claim demands that NaN never win). -/
theorem chooseToken_counterexample :
    chooseToken [F32V.fin 1, F32V.fin 1] 0 = 1 ∧
    chooseToken [F32V.fin 5, F32V.nan] 0 = 1 := by
  decide

/-- C7 counterexample: a vocabulary file with an unparsable line
("garbage") but a valid `<blk> 0` line loads successfully, so
`load_vocab` does not fail on unparsable lines as the claim states. -/
theorem load_vocab_counterexample :
    hasUnparsableLine "garbage\n<blk> 0" = true ∧
    load_vocab "garbage\n<blk> 0" = .ok (["<blk>"], 0) := by
  decide

/-- The blank index found by the vocabulary line fold is present iff
some line parses as a `<blk>` entry. -/
theorem foldl_vocabLineStep_blank (lines : List String) :
    ∀ acc : ℕ × List (String × ℕ) × Option ℕ,
      ((lines.foldl vocabLineStep acc).2.2).isSome =
        (acc.2.2.isSome || lines.any (fun line =>
          match splitChar ' ' line with
          | token :: idStr :: _ => token = "<blk>" && (parseUsize idStr).isSome
          | _ => false)) := by
  induction lines with
  | nil => intro acc; simp
  | cons line rest ih =>
    intro acc
    rw [List.foldl_cons, ih, List.any_cons]
    have hstep : (vocabLineStep acc line).2.2.isSome =
        (acc.2.2.isSome ||
          (match splitChar ' ' line with
            | token :: idStr :: _ => token = "<blk>" && (parseUsize idStr).isSome
            | _ => false)) := by
      unfold vocabLineStep
      rcases hsplit : splitChar ' ' line with _ | ⟨token, _ | ⟨idStr, restp⟩⟩
      · simp
      · simp
      · rcases hid : parseUsize idStr with _ | id
        · simp [hid]
        · by_cases htok : token = "<blk>"
          · simp [hid, htok]
          · simp [hid, htok]
    rw [hstep, Bool.or_assoc]

/-- Length is preserved by the table-filling fold of `load_vocab`. -/
theorem foldl_vocab_set_length (ps : List (String × ℕ)) :
    ∀ init : List String,
      (ps.foldl (fun v (p : String × ℕ) => v.set p.2 (replaceLowBar p.1))
        init).length = init.length := by
  induction ps with
  | nil => intro init; rfl
  | cons p rest ih =>
    intro init
    rw [List.foldl_cons, ih, List.length_set]

/-- Every entry of the filled table is an initial entry or a
`replaceLowBar` image. -/
theorem foldl_vocab_set_mem (ps : List (String × ℕ)) :
    ∀ init : List String,
      ∀ s ∈ ps.foldl (fun v (p : String × ℕ) => v.set p.2 (replaceLowBar p.1)) init,
        s ∈ init ∨ ∃ p : String × ℕ, s = replaceLowBar p.1 := by
  induction ps with
  | nil => intro init s hs; exact Or.inl hs
  | cons p rest ih =>
    intro init s hs
    rw [List.foldl_cons] at hs
    rcases ih _ s hs with h | h
    · rcases List.mem_or_eq_of_mem_set h with h2 | h2
      · exact Or.inl h2
      · exact Or.inr ⟨p, h2⟩
    · exact Or.inr h

/-- `replaceLowBar` leaves no U+2581 in its output. -/
theorem replaceLowBar_clean (s : String) : ∀ c ∈ (replaceLowBar s).data, c ≠ '▁' := by
  intro c hc
  simp only [replaceLowBar, List.mem_map] at hc
  obtain ⟨a, _, ha⟩ := hc
  by_cases h : a = '▁'
  · rw [← ha]
    simp [h]
  · rw [← ha]
    simp [h]

/-- C7 (amended): `load_vocab` fails iff no line parses as a
`<blk> <id>` entry (unparsable lines are skipped); on success the table
is dense of size `max_id + 1` and no stored token contains U+2581. -/
theorem load_vocab_spec (content : String) :
    ((load_vocab content).isOk = hasBlkLine content) ∧
    ∀ v b, load_vocab content = .ok (v, b) →
      v.length = vocabMaxId content + 1 ∧
      ∀ s ∈ v, ∀ c ∈ s.data, c ≠ '▁' := by
  have hblank := foldl_vocabLineStep_blank (rustLines content) (0, [], none)
  simp only [Option.isSome_none, Bool.false_or] at hblank
  constructor
  · have h1 : (load_vocab content).isOk =
        ((rustLines content).foldl vocabLineStep (0, [], none)).2.2.isSome := by
      simp only [load_vocab]
      rcases hacc : ((rustLines content).foldl vocabLineStep (0, [], none)).2.2 with
        _ | b
      · rfl
      · rfl
    rw [h1, hblank]
    rfl
  · intro v b hok
    simp only [load_vocab] at hok
    rcases hacc : ((rustLines content).foldl vocabLineStep (0, [], none)).2.2 with
      _ | b2
    · rw [hacc] at hok
      cases hok
    · rw [hacc] at hok
      simp only [Except.ok.injEq, Prod.mk.injEq] at hok
      obtain ⟨hv, _⟩ := hok
      constructor
      · rw [← hv, foldl_vocab_set_length]
        simp [vocabMaxId, List.length_replicate]
      · intro s hs
        rw [← hv] at hs
        rcases foldl_vocab_set_mem _ _ s hs with h | ⟨p, hp⟩
        · rcases List.eq_of_mem_replicate h with rfl
          intro c hc
          cases hc
        · rw [hp]
          exact replaceLowBar_clean p.1

/-- Witness for C7's amended theorem on a concrete vocabulary with a
U+2581 marker. -/
theorem load_vocab_spec_witness :
    ((load_vocab "▁x 1\n<blk> 0").isOk = hasBlkLine "▁x 1\n<blk> 0") ∧
    (["<blk>", " x"].length = vocabMaxId "▁x 1\n<blk> 0" + 1 ∧
      ∀ s ∈ ["<blk>", " x"], ∀ c ∈ s.data, c ≠ '▁') :=
  ⟨(load_vocab_spec "▁x 1\n<blk> 0").1,
   (load_vocab_spec "▁x 1\n<blk> 0").2 ["<blk>", " x"] 0 (by decide)⟩

/-- C8 counterexample: the space normalisation is not idempotent:
on `"  a"` one application yields `" a"` and a second yields `"a"`. -/
theorem normalizeSpace_counterexample :
    normalizeSpace asciiWs asciiWord (normalizeSpace asciiWs asciiWord "  a") ≠
      normalizeSpace asciiWs asciiWord "  a" := by
  decide

/-- The unanchored space-normalisation pass (all matches except `\A\s`)
is idempotent: a kept whitespace is followed by a word character, so it
is kept again. -/
theorem normAux_false_idem (ws word : Char → Bool)
    (hdisj : ∀ c, ws c = true → word c = false) :
    ∀ l : List Char,
      normAux ws word false (normAux ws word false l) =
        normAux ws word false l := by
  intro l
  induction l with
  | nil => rfl
  | cons c rest ih =>
    by_cases hc : ws c = true
    · rcases hrest : rest with _ | ⟨d, t⟩
      · simp [normAux, hc, keepWs]
      · subst hrest
        by_cases hd2 : word d = true
        · have hwsd : ws d = false := by
            rcases hws : ws d with _ | _
            · rfl
            · rw [hdisj d hws] at hd2
              cases hd2
          simp only [normAux, hc, keepWs, hd2, hwsd, Bool.false_eq_true,
            if_true, if_false, List.singleton_append, List.cons.injEq,
            true_and] at ih ⊢
          exact ih
        · simp only [normAux, hc, keepWs, hd2, Bool.false_eq_true, if_true,
            if_false, List.nil_append] at ih ⊢
          exact ih
    · simp only [normAux, hc, Bool.false_eq_true, if_false, List.cons.injEq,
        true_and] at ih ⊢
      exact ih

/-- C8 (amended): the space normalisation is idempotent on every input
whose once-normalised form does not begin with a whitespace character
(equivalently, inputs that do not start with two or more whitespace
characters whose run is immediately followed by a word character). -/
theorem normalizeSpace_conditional_idem (ws word : Char → Bool)
    (hdisj : ∀ c, ws c = true → word c = false) (s : String)
    (hhead : ∀ c, (normalizeSpace ws word s).data.head? = some c →
      ws c = false) :
    normalizeSpace ws word (normalizeSpace ws word s) =
      normalizeSpace ws word s := by
  have hg := normAux_false_idem ws word hdisj
  have hdata : (normalizeSpace ws word s).data = normAux ws word true s.data := rfl
  show (⟨normAux ws word true (normalizeSpace ws word s).data⟩ : String) =
    normalizeSpace ws word s
  rw [hdata]
  show (⟨normAux ws word true (normAux ws word true s.data)⟩ : String) =
    (⟨normAux ws word true s.data⟩ : String)
  congr 1
  rcases hsd : s.data with _ | ⟨c, rest⟩
  · rfl
  · by_cases hc : ws c = true
    · have houter : normAux ws word true (c :: rest) =
          normAux ws word false rest := by
        simp [normAux, hc]
      rw [houter]
      have hh : ∀ x, (normAux ws word false rest).head? = some x →
          ws x = false := by
        intro x hx
        apply hhead
        rw [hdata, hsd, houter]
        exact hx
      rcases hrest : normAux ws word false rest with _ | ⟨d, t⟩
      · rfl
      · have hwsd : ws d = false := hh d (by rw [hrest]; rfl)
        have hgg := hg rest
        rw [hrest] at hgg
        simp only [normAux, hwsd, Bool.false_eq_true, if_false,
          List.cons.injEq, true_and] at hgg ⊢
        exact hgg
    · have houter : normAux ws word true (c :: rest) =
          c :: normAux ws word false rest := by
        simp [normAux, hc]
      rw [houter]
      simp only [normAux, hc, Bool.false_eq_true, if_false, List.cons.injEq,
        true_and]
      exact hg rest

/-- Witness for C8's amended theorem: `" a b "` normalises to `"a b"`,
which does not begin with whitespace, and a second application is the
identity. -/
theorem normalizeSpace_conditional_idem_witness :
    normalizeSpace asciiWs asciiWord (normalizeSpace asciiWs asciiWord " a b ") =
      normalizeSpace asciiWs asciiWord " a b " :=
  normalizeSpace_conditional_idem asciiWs asciiWord
    (by
      intro c h
      simp only [asciiWs, decide_eq_true_eq] at h
      rcases h with rfl | rfl | rfl | rfl | rfl | rfl <;> decide)
    " a b "
    (by
      intro c h
      rw [show normalizeSpace asciiWs asciiWord " a b " = "a b" from by decide] at h
      simp only [String.data] at h
      have hca : 'a' = c := by simpa using h
      rw [← hca]
      decide)

/-- Each iteration of the decode loop either advances the frame index
and resets the per-frame emission counter, or stays on the frame and
increases the counter to a value below `MAX_PER_STEP`. -/
theorem decodeIter_cases (vs bi : ℕ) (probs : List F32V) (st : LoopState) :
    ((decodeIter vs bi probs st).t = st.t + 1 ∧
      (decodeIter vs bi probs st).emitted = 0) ∨
    ((decodeIter vs bi probs st).t = st.t ∧
      (decodeIter vs bi probs st).emitted = st.emitted + 1 ∧
      st.emitted + 1 ≠ MAX_PER_STEP) := by
  unfold decodeIter
  by_cases htok : decodeStepToken vs bi probs = bi
  · left
    simp [htok]
  · by_cases hfull : st.emitted + 1 = MAX_PER_STEP
    · left
      simp [htok, hfull]
    · right
      simp [htok, hfull]

/-- The decode loop returns a result whenever the fuel dominates the
measure `MAX_PER_STEP * (len − t) − emitted`. -/
theorem decodeLoop_isSome (step : ℕ → List F32V) (vs bi len : ℕ) :
    ∀ fuel st, st.emitted < MAX_PER_STEP →
      MAX_PER_STEP * (len - st.t) - st.emitted ≤ fuel →
      (decodeLoop step vs bi len fuel st).isSome = true := by
  intro fuel
  induction fuel with
  | zero =>
    intro st hlt hm
    unfold decodeLoop
    split
    · exfalso
      simp only [MAX_PER_STEP] at hlt hm
      omega
    · simp
  | succ n ih =>
    intro st hlt hm
    unfold decodeLoop
    split
    · rcases decodeIter_cases vs bi (step st.calls) st with
        ⟨ht, he⟩ | ⟨ht, he, hne⟩
      · apply ih
        · rw [he]; simp [MAX_PER_STEP]
        · rw [ht, he]
          simp only [MAX_PER_STEP] at hlt hm ⊢
          omega
      · apply ih
        · rw [he]
          simp only [MAX_PER_STEP] at hlt hne ⊢
          omega
        · rename_i hcond
          rw [ht, he]
          simp only [MAX_PER_STEP] at hlt hm ⊢
          omega
    · simp

/-- `Iterator::max_by` returns the accumulator or one of the folded
elements. -/
theorem foldl_maxByFold_cases (l : List (ℕ × F32V)) :
    ∀ acc, l.foldl maxByFold acc = acc ∨ ∃ p ∈ l, l.foldl maxByFold acc = some p := by
  induction l with
  | nil => intro acc; exact Or.inl rfl
  | cons x xs ih =>
    intro acc
    rcases ih (maxByFold acc x) with h | ⟨p, hp, h⟩
    · rw [List.foldl_cons, h]
      unfold maxByFold
      cases acc with
      | none => exact Or.inr ⟨x, List.mem_cons_self x xs, rfl⟩
      | some a =>
        by_cases hcmp : pcmp a.2 x.2 = Ordering.gt
        · left
          simp [hcmp]
        · right
          exact ⟨x, List.mem_cons_self x xs, by simp [hcmp]⟩
    · exact Or.inr ⟨p, List.mem_cons_of_mem x hp, by rw [List.foldl_cons]; exact h⟩

/-- When the chosen token differs from `blank_idx`, it is an index into
the logits vector. -/
theorem chooseToken_lt_of_ne (l : List F32V) (b : ℕ)
    (h : chooseToken l b ≠ b) : chooseToken l b < l.length := by
  unfold chooseToken at h ⊢
  rcases foldl_maxByFold_cases l.enum none with hc | ⟨p, hp, hc⟩
  · rw [hc] at h ⊢
    exact absurd rfl h
  · rw [hc] at h ⊢
    have := List.mem_enum_iff_getElem?.mp hp
    have hlt := List.getElem?_eq_some.mp this
    exact hlt.1

/-- The chosen token of a decode step is below `vocab_size` unless it
is the blank fallback. -/
theorem decodeStepToken_lt (vs bi : ℕ) (probs : List F32V)
    (h : decodeStepToken vs bi probs ≠ bi) : decodeStepToken vs bi probs < vs := by
  simp only [decodeStepToken] at h ⊢
  have h1 := chooseToken_lt_of_ne _ _ h
  have h2 : (if probs.length > vs then probs.take vs else probs).length ≤ vs := by
    split
    · simp only [List.length_take]
      omega
    · omega
  omega

theorem get_append_last {α : Type} (l : List α) (x : α)
    (h : l.length < (l ++ [x]).length) :
    (l ++ [x]).get ⟨l.length, h⟩ = x := by
  rw [List.get_eq_getElem]
  simp

theorem get_append_left_aux {α : Type} (l : List α) (x : α) (j : ℕ)
    (hj : j < l.length) (h : j < (l ++ [x]).length) :
    (l ++ [x]).get ⟨j, h⟩ = l.get ⟨j, hj⟩ := by
  rw [List.get_eq_getElem, List.get_eq_getElem]
  exact List.getElem_append_left hj

/-- Specification of the `max_by` fold over NaN-free logits: it keeps
the value of the greatest index attaining the maximum. -/
theorem chooseToken_fold_spec (l : List ℚ) : l ≠ [] →
    ∃ i, ∃ hi : i < l.length,
      (l.map F32V.fin).enum.foldl maxByFold none =
        some (i, F32V.fin (l.get ⟨i, hi⟩)) ∧
      ∀ j, ∀ hj : j < l.length,
        l.get ⟨j, hj⟩ ≤ l.get ⟨i, hi⟩ ∧
        (l.get ⟨j, hj⟩ = l.get ⟨i, hi⟩ → j ≤ i) := by
  induction l using List.reverseRecOn with
  | nil => intro h; exact absurd rfl h
  | append_singleton l x ih =>
    intro _
    rcases eq_or_ne l [] with rfl | hl
    · refine ⟨0, by simp, by simp [maxByFold], ?_⟩
      intro j hj
      have hj0 : j = 0 := by
        simp only [List.nil_append, List.length_singleton] at hj
        omega
      subst hj0
      exact ⟨le_refl _, fun _ => le_refl _⟩
    · obtain ⟨i, hi, hfold, hspec⟩ := ih hl
      have hfold2 : ((l ++ [x]).map F32V.fin).enum.foldl maxByFold none =
          maxByFold (some (i, F32V.fin (l.get ⟨i, hi⟩))) (l.length, F32V.fin x) := by
        rw [List.map_append, List.enum_append, List.foldl_append, hfold]
        rw [List.length_map]
        rfl
      by_cases hgt : x < l.get ⟨i, hi⟩
      · have hres : ((l ++ [x]).map F32V.fin).enum.foldl maxByFold none =
            some (i, F32V.fin (l.get ⟨i, hi⟩)) := by
          rw [hfold2]
          have hcmp : pcmp (F32V.fin (l.get ⟨i, hi⟩)) (F32V.fin x) = Ordering.gt :=
            compare_gt_iff_gt.2 hgt
          show some (if pcmp (F32V.fin (l.get ⟨i, hi⟩)) (F32V.fin x) = Ordering.gt
              then ((i, F32V.fin (l.get ⟨i, hi⟩)) : ℕ × F32V)
              else (l.length, F32V.fin x)) =
            some (i, F32V.fin (l.get ⟨i, hi⟩))
          rw [if_pos hcmp]
        have hi' : i < (l ++ [x]).length := by
          simp only [List.length_append, List.length_singleton]
          omega
        have hget_i : (l ++ [x]).get ⟨i, hi'⟩ = l.get ⟨i, hi⟩ :=
          get_append_left_aux l x i hi hi'
        refine ⟨i, hi', by rw [hget_i]; exact hres, ?_⟩
        intro j hj
        rcases Nat.lt_or_ge j l.length with hjl | hjg
        · have hget_j : (l ++ [x]).get ⟨j, hj⟩ = l.get ⟨j, hjl⟩ :=
            get_append_left_aux l x j hjl hj
          rw [hget_i, hget_j]
          exact hspec j hjl
        · have hj_eq : j = l.length := by
            simp only [List.length_append, List.length_singleton] at hj
            omega
          subst hj_eq
          have hget_j : (l ++ [x]).get ⟨l.length, hj⟩ = x := get_append_last l x hj
          rw [hget_i, hget_j]
          exact ⟨le_of_lt hgt, fun hcontra => absurd hcontra (ne_of_lt hgt)⟩
      · have hle : l.get ⟨i, hi⟩ ≤ x := le_of_not_lt hgt
        have hres : ((l ++ [x]).map F32V.fin).enum.foldl maxByFold none =
            some (l.length, F32V.fin x) := by
          rw [hfold2]
          have hcmp : pcmp (F32V.fin (l.get ⟨i, hi⟩)) (F32V.fin x) ≠ Ordering.gt := by
            intro hc
            have hc2 : compare (l.get ⟨i, hi⟩) x = Ordering.gt := hc
            exact absurd (compare_gt_iff_gt.1 hc2) (not_lt.2 hle)
          show some (if pcmp (F32V.fin (l.get ⟨i, hi⟩)) (F32V.fin x) = Ordering.gt
              then ((i, F32V.fin (l.get ⟨i, hi⟩)) : ℕ × F32V)
              else (l.length, F32V.fin x)) =
            some (l.length, F32V.fin x)
          rw [if_neg hcmp]
        have hlen' : l.length < (l ++ [x]).length := by
          simp only [List.length_append, List.length_singleton]
          omega
        have hget_len : (l ++ [x]).get ⟨l.length, hlen'⟩ = x := get_append_last l x hlen'
        refine ⟨l.length, hlen', by rw [hget_len]; exact hres, ?_⟩
        intro j hj
        rcases Nat.lt_or_ge j l.length with hjl | hjg
        · have hget_j : (l ++ [x]).get ⟨j, hj⟩ = l.get ⟨j, hjl⟩ :=
            get_append_left_aux l x j hjl hj
          rw [hget_len, hget_j]
          exact ⟨le_trans (hspec j hjl).1 hle, fun _ => le_of_lt hjl⟩
        · have hj_eq : j = l.length := by
            simp only [List.length_append, List.length_singleton] at hj
            omega
          subst hj_eq
          rw [hget_len]
          exact ⟨le_refl _, fun _ => le_refl _⟩

/-- C4 (amended): on a NaN-free logits vector the decode step picks an
argmax index, and among equal maxima the *largest* index wins (Rust's
`max_by` keeps the later element on ties). -/
theorem chooseToken_picks_last_max (l : List ℚ) (b : ℕ) (hne : l ≠ []) :
    ∃ hi : chooseToken (l.map F32V.fin) b < l.length,
      ∀ j, ∀ hj : j < l.length,
        l.get ⟨j, hj⟩ ≤ l.get ⟨chooseToken (l.map F32V.fin) b, hi⟩ ∧
        (l.get ⟨j, hj⟩ = l.get ⟨chooseToken (l.map F32V.fin) b, hi⟩ →
          j ≤ chooseToken (l.map F32V.fin) b) := by
  obtain ⟨i, hi, hfold, hspec⟩ := chooseToken_fold_spec l hne
  have hct : chooseToken (l.map F32V.fin) b = i := by
    unfold chooseToken
    rw [hfold]
  simp only [hct]
  exact ⟨hi, hspec⟩

/-- Witness for C4's amended theorem: on the tie `[1, 1]` the chosen
index 1 is an argmax and is the largest index attaining the maximum. -/
theorem chooseToken_picks_last_max_witness :
    ∃ hi : chooseToken (([1, 1] : List ℚ).map F32V.fin) 0 < ([1, 1] : List ℚ).length,
      ∀ j, ∀ hj : j < ([1, 1] : List ℚ).length,
        ([1, 1] : List ℚ).get ⟨j, hj⟩ ≤
          ([1, 1] : List ℚ).get ⟨chooseToken (([1, 1] : List ℚ).map F32V.fin) 0, hi⟩ ∧
        (([1, 1] : List ℚ).get ⟨j, hj⟩ =
            ([1, 1] : List ℚ).get ⟨chooseToken (([1, 1] : List ℚ).map F32V.fin) 0, hi⟩ →
          j ≤ chooseToken (([1, 1] : List ℚ).map F32V.fin) 0) :=
  chooseToken_picks_last_max [1, 1] 0 (by simp)

/-- `filterMap` keeps the length when the function succeeds on every
element. -/
theorem length_filterMap_of_isSome {α β : Type} (f : α → Option β) :
    ∀ l : List α, (∀ a ∈ l, (f a).isSome = true) →
      (l.filterMap f).length = l.length := by
  intro l
  induction l with
  | nil => intro _; rfl
  | cons x xs ih =>
    intro h
    rw [List.filterMap_cons]
    rcases hfx : f x with _ | y
    · have := h x (List.mem_cons_self x xs)
      rw [hfx] at this
      cases this
    · simp only [List.length_cons]
      rw [ih (fun a ha => h a (List.mem_cons_of_mem x ha))]

/-- One decode iteration preserves the well-formedness invariants:
equal lengths, token ids below `vocab_size`, sorted timestamps bounded
by the current frame. -/
theorem decodeIter_inv (vs bi : ℕ) (probs : List F32V) (st : LoopState)
    (h1 : st.tokens.length = st.timestamps.length)
    (h2 : ∀ id ∈ st.tokens, id < vs)
    (h3 : st.timestamps.Chain' (· ≤ ·))
    (h4 : ∀ x ∈ st.timestamps, x ≤ st.t) :
    (decodeIter vs bi probs st).tokens.length =
      (decodeIter vs bi probs st).timestamps.length ∧
    (∀ id ∈ (decodeIter vs bi probs st).tokens, id < vs) ∧
    (decodeIter vs bi probs st).timestamps.Chain' (· ≤ ·) ∧
    (∀ x ∈ (decodeIter vs bi probs st).timestamps,
      x ≤ (decodeIter vs bi probs st).t) := by
  have happend :
      (st.timestamps ++ [st.t]).Chain' (· ≤ ·) := by
    apply List.chain'_append.2
    refine ⟨h3, List.chain'_singleton st.t, ?_⟩
    intro x hx y hy
    simp only [List.head?_cons, Option.mem_def, Option.some.injEq] at hy
    subst hy
    rcases List.getLast?_eq_some_iff.mp hx with ⟨ys, hys⟩
    exact h4 x (by rw [hys]; simp)
  unfold decodeIter
  by_cases htok : decodeStepToken vs bi probs = bi
  · simp only [htok, ne_eq, not_true_eq_false, if_false, true_or, if_true]
    refine ⟨h1, h2, h3, fun x hx => ?_⟩
    exact Nat.le_succ_of_le (h4 x hx)
  · have hlt := decodeStepToken_lt vs bi probs htok
    have hmem : ∀ id ∈ st.tokens ++ [decodeStepToken vs bi probs], id < vs := by
      intro id hid
      rcases List.mem_append.mp hid with h | h
      · exact h2 id h
      · simp only [List.mem_singleton] at h
        subst h
        exact hlt
    by_cases hfull : st.emitted + 1 = MAX_PER_STEP
    · simp only [htok, ne_eq, not_false_eq_true, if_true, hfull, or_true, if_false,
        false_or]
      refine ⟨by simp [h1], hmem, happend, fun x hx => ?_⟩
      rcases List.mem_append.mp hx with h | h
      · exact Nat.le_succ_of_le (h4 x h)
      · simp only [List.mem_singleton] at h
        subst h
        exact Nat.le_succ _
    · simp only [htok, ne_eq, not_false_eq_true, if_true, hfull, or_false, if_false,
        false_or]
      refine ⟨by simp [h1], hmem, happend, fun x hx => ?_⟩
      rcases List.mem_append.mp hx with h | h
      · exact h4 x h
      · simp only [List.mem_singleton] at h
        omega

/-- Any successful run of the decode loop from the initial state yields
equally long, bounded token ids and sorted timestamps. -/
theorem decodeLoop_inv (step : ℕ → List F32V) (vs bi len : ℕ) :
    ∀ fuel st ids ts,
      st.tokens.length = st.timestamps.length →
      (∀ id ∈ st.tokens, id < vs) →
      st.timestamps.Chain' (· ≤ ·) →
      (∀ x ∈ st.timestamps, x ≤ st.t) →
      decodeLoop step vs bi len fuel st = some (ids, ts) →
      ids.length = ts.length ∧ (∀ id ∈ ids, id < vs) ∧ ts.Chain' (· ≤ ·) := by
  intro fuel
  induction fuel with
  | zero =>
    intro st ids ts h1 h2 h3 h4 hrun
    unfold decodeLoop at hrun
    split at hrun
    · cases hrun
    · simp only [Option.some.injEq, Prod.mk.injEq] at hrun
      obtain ⟨rfl, rfl⟩ := hrun
      exact ⟨h1, h2, h3⟩
  | succ n ih =>
    intro st ids ts h1 h2 h3 h4 hrun
    unfold decodeLoop at hrun
    split at hrun
    · obtain ⟨g1, g2, g3, g4⟩ := decodeIter_inv vs bi (step st.calls) st h1 h2 h3 h4
      exact ih _ ids ts g1 g2 g3 g4 hrun
    · simp only [Option.some.injEq, Prod.mk.injEq] at hrun
      obtain ⟨rfl, rfl⟩ := hrun
      exact ⟨h1, h2, h3⟩

/-- C5: every `TimestampedResult` produced by the decode pipeline
(`decode_sequence` followed by `decode_tokens`) has equally many tokens
and timestamps, and the timestamps are monotonically non-decreasing. -/
theorem decode_pipeline_wellformed (step : ℕ → List F32V) (vocab : List String)
    (blank_idx encodings_len fuel : ℕ) (ws word : Char → Bool) (ids ts : List ℕ)
    (hrun : decodeLoop step vocab.length blank_idx encodings_len fuel
      LoopState.init = some (ids, ts)) :
    (decode_tokens ws word vocab ids ts).tokens.length =
      (decode_tokens ws word vocab ids ts).timestamps.length ∧
    (decode_tokens ws word vocab ids ts).timestamps.Chain' (· ≤ ·) := by
  obtain ⟨hlen, hbound, hchain⟩ :=
    decodeLoop_inv step vocab.length blank_idx encodings_len fuel LoopState.init
      ids ts rfl (by intro id hid; cases hid) List.chain'_nil
      (by intro x hx; cases hx) hrun
  constructor
  · simp only [decode_tokens, List.length_map]
    rw [length_filterMap_of_isSome]
    · exact hlen
    · intro id hid
      simp [hbound id hid]
  · simp only [decode_tokens]
    refine (List.chain'_map _).2 (hchain.imp ?_)
    intro a b hab
    have : (a : ℚ) ≤ (b : ℚ) := Nat.cast_le.2 hab
    have hc : (0 : ℚ) ≤ WINDOW_SIZE * (SUBSAMPLING_FACTOR : ℚ) := by
      norm_num [WINDOW_SIZE, SUBSAMPLING_FACTOR]
    exact mul_le_mul_of_nonneg_left this hc

/-- Witness for C5 at a concrete run (empty logits at every step, so
the loop advances through the single frame emitting nothing). -/
theorem decode_pipeline_wellformed_witness :
    (decode_tokens asciiWs asciiWord ["<blk>", "x"] [] []).tokens.length =
      (decode_tokens asciiWs asciiWord ["<blk>", "x"] [] []).timestamps.length ∧
    (decode_tokens asciiWs asciiWord ["<blk>", "x"] [] []).timestamps.Chain'
      (· ≤ ·) :=
  decode_pipeline_wellformed (fun _ => []) ["<blk>", "x"] 0 1 10 asciiWs asciiWord
    [] [] (by decide)

/-- C3: for every frame count and every behaviour of the joint-decoder
(any sequence of returned logit vectors), the greedy decode loop
terminates: `MAX_PER_STEP * encodings_len` iterations always suffice to
reach `t = encodings_len`. -/
theorem decode_loop_terminates (step : ℕ → List F32V)
    (vocab_size blank_idx encodings_len : ℕ) :
    (decodeLoop step vocab_size blank_idx encodings_len
      (MAX_PER_STEP * encodings_len) LoopState.init).isSome = true := by
  apply decodeLoop_isSome
  · simp [LoopState.init, MAX_PER_STEP]
  · simp [LoopState.init]
